import Mathlib

/-!
Verification development for the BDT stock-market pipeline.

The pipeline cleans raw tabular market records and precomputes aggregate
views.  This file gives a shallow embedding of the cleaning stage
(`02_clean_data.py`: header snake-casing, cell trimming, missing-token
canonicalization, per-column casing) and of the aggregation stage
(`Stock_Market_Analysis/03_create_aggregations.py`: required-column
synthesis, derived flags, exchange-to-country lookup, price change, and
the group-by views), together with theorems settling the specification
claims about them.

Modelling conventions: pandas missing values (`pd.NA` / `NaN` / `None`)
are `Option.none`; decimal cell values are rationals; strings are Lean
`String`s and character-level work happens on their `data` lists.  Python
`str.lower`/`str.upper` are modelled by the ASCII letter tables below
(the regex `[^0-9a-zA-Z]` in the source is ASCII-only as well).  A pandas
`groupby` with its default `dropna=True` yields one group per distinct
non-null key value; group order is irrelevant to every statement proved
here (the spec leaves row order unspecified).
-/

namespace BDT

/-- ASCII uppercase-to-lowercase letter table: models Python `str.lower`
restricted to ASCII, which is exact on every string the pipeline feeds it. -/
def toLowerPairs : List (Char × Char) :=
  [('A', 'a'), ('B', 'b'), ('C', 'c'), ('D', 'd'), ('E', 'e'), ('F', 'f'),
   ('G', 'g'), ('H', 'h'), ('I', 'i'), ('J', 'j'), ('K', 'k'), ('L', 'l'),
   ('M', 'm'), ('N', 'n'), ('O', 'o'), ('P', 'p'), ('Q', 'q'), ('R', 'r'),
   ('S', 's'), ('T', 't'), ('U', 'u'), ('V', 'v'), ('W', 'w'), ('X', 'x'),
   ('Y', 'y'), ('Z', 'z')]

/-- ASCII lowercase-to-uppercase letter table: models Python `str.upper`. -/
def toUpperPairs : List (Char × Char) :=
  [('a', 'A'), ('b', 'B'), ('c', 'C'), ('d', 'D'), ('e', 'E'), ('f', 'F'),
   ('g', 'G'), ('h', 'H'), ('i', 'I'), ('j', 'J'), ('k', 'K'), ('l', 'L'),
   ('m', 'M'), ('n', 'N'), ('o', 'O'), ('p', 'P'), ('q', 'Q'), ('r', 'R'),
   ('s', 'S'), ('t', 'T'), ('u', 'U'), ('v', 'V'), ('w', 'W'), ('x', 'X'),
   ('y', 'Y'), ('z', 'Z')]

/-- First-match association-list lookup with a default, the model used here
for Python dictionary lookups (`dict.get`, `Series.map(...).fillna(d)`). -/
def assocGet {α β : Type} [BEq α] (tbl : List (α × β)) (a : α) (dflt : β) : β :=
  match tbl with
  | [] => dflt
  | (k, v) :: t => if a == k then v else assocGet t a dflt

/-- Lowercase one character (ASCII model of Python `str.lower`). -/
def loChar (c : Char) : Char := assocGet toLowerPairs c c

/-- Uppercase one character (ASCII model of Python `str.upper`). -/
def upChar (c : Char) : Char := assocGet toUpperPairs c c

/-- The character class `[0-9a-zA-Z]` of the regexes in `to_snake_case`. -/
def isAlnumCh (c : Char) : Bool := c.isDigit || c.isUpper || c.isLower

/-- The whitespace stripped by Python `str.strip()` (ASCII part). -/
def isPySpace (c : Char) : Bool :=
  c == ' ' || c == '\t' || c == '\n' || c == '\r' ||
  c == Char.ofNat 11 || c == Char.ofNat 12

/-- Drop matching characters from the end of a list. -/
def dropEndWhile (p : Char → Bool) (l : List Char) : List Char :=
  (l.reverse.dropWhile p).reverse

/-- Drop matching characters from both ends, as Python `str.strip` does. -/
def stripEnds (p : Char → Bool) (l : List Char) : List Char :=
  dropEndWhile p (l.dropWhile p)

/-- Python `s.strip()` on a string. -/
def pyStrip (s : String) : String := ⟨stripEnds isPySpace s.data⟩

/-- Python `s.lower()` on a string (ASCII model). -/
def lowerStr (s : String) : String := ⟨s.data.map loChar⟩

/-- Python `s.upper()` on a string (ASCII model). -/
def upperStr (s : String) : String := ⟨s.data.map upChar⟩

/-- One pass of `re.sub(r'[^0-9a-zA-Z]+', '_', s)`: every maximal run of
non-alphanumeric characters becomes a single underscore.  The boolean state
records whether we are inside a run whose underscore was already emitted. -/
def subAux : Bool → List Char → List Char
  | _, [] => []
  | inRun, c :: cs =>
    if isAlnumCh c then c :: subAux false cs
    else if inRun then subAux true cs
    else '_' :: subAux true cs

/-- One pass of `re.sub(r'_+', '_', s)`: collapse repeated underscores.
The boolean state records whether the previous kept character was `_`. -/
def collapseAux : Bool → List Char → List Char
  | _, [] => []
  | prev, c :: cs =>
    if c == '_' then
      if prev then collapseAux true cs else '_' :: collapseAux true cs
    else c :: collapseAux false cs

/-- The function `to_snake_case` from `02_clean_data.py` on the character list: strip
whitespace, replace non-alphanumeric runs by `_`, collapse `_` runs,
lowercase, and strip leading and trailing underscores. -/
def snakeList (l : List Char) : List Char :=
  stripEnds (fun c => c == '_')
    ((collapseAux false (subAux false (stripEnds isPySpace l))).map loChar)

/-- The function `to_snake_case` from `02_clean_data.py`. -/
def to_snake_case (s : String) : String := ⟨snakeList s.data⟩

/-- Source line `df.columns = [to_snake_case(col) for col in df.columns]`: the header
row is normalized element by element, with no collision check. -/
def normalizeHeaders (hs : List String) : List String := hs.map to_snake_case

/-- The fixed missing-token list of `02_clean_data.py` step 4. -/
def missing_tokens : List String := ["", "NA", "N/A", "na", "NaN", "null", "None", "-"]

/-- Does `hay` start with `pat`? -/
def leadsWith : List Char → List Char → Bool
  | _, [] => true
  | [], _ :: _ => false
  | c :: cs, p :: ps => c == p && leadsWith cs ps

/-- Does `hay` contain `pat` as a contiguous run (Python `pat in hay`)? -/
def containsRun (hay pat : List Char) : Bool :=
  match hay with
  | [] => pat.isEmpty
  | _ :: t => leadsWith hay pat || containsRun t pat

/-- Python substring test `pat in s`. -/
def strContains (s pat : String) : Bool := containsRun s.data pat.data

/-- Cell cleaning from `02_clean_data.py` steps 3 to 5 for one cell of
column `col`: trim, canonicalize the fixed missing tokens to null, then
uppercase the value when the column name contains `ticker`, else lowercase. -/
def clean_cell (col : String) (raw : String) : Option String :=
  let t := pyStrip raw
  if missing_tokens.contains t then none
  else if strContains col "ticker" then some (upperStr t)
  else some (lowerStr t)

/-- One row of the table read by `create_aggregations` after its numeric
conversions: nullable strings for text columns, nullable rationals for the
numeric ones (`pd.to_numeric(..., errors="coerce")` leaves null on failure). -/
structure Row where
  ticker : Option String
  trade_date : Option String
  open_price : Option ℚ
  close_price : Option ℚ
  volume : Option ℚ
  sector : Option String
  notes : Option String
  validated : Option String
  exchange : Option String

/-- Source line `df["notes"].astype(str).str.contains("gap up", case=False, na=False)`:
a null cell stringifies to text without the pattern, hence `false`. -/
def gap_up_flag (r : Row) : Bool :=
  match r.notes with
  | none => false
  | some s => strContains (lowerStr s) "gap up"

/-- Analogous flag for the pattern `gap down`. -/
def gap_down_flag (r : Row) : Bool :=
  match r.notes with
  | none => false
  | some s => strContains (lowerStr s) "gap down"

/-- Source line `df["validated"].astype(str).str.lower().isin(["yes", "y"])`. -/
def validated_flag (r : Row) : Bool :=
  match r.validated with
  | none => false
  | some s => lowerStr s == "yes" || lowerStr s == "y"

/-- Source line `df["price_change"] = df["close_price"] - df["open_price"]`: float
subtraction propagates a missing operand to a missing result. -/
def price_change (r : Row) : Option ℚ :=
  match r.open_price, r.close_price with
  | some o, some c => some (c - o)
  | _, _ => none

/-- The fixed exchange-to-country table of `create_aggregations`. -/
def countryMap : List (String × String) :=
  [("nasdaq", "USA"), ("nyse", "USA"), ("lse", "UK"),
   ("tse", "Japan"), ("hkex", "Hong Kong"), ("tsx", "Canada")]

/-- Source line `df["exchange"].astype(str).str.strip().str.lower()`: a missing cell
stringifies to the text "nan", which no table key matches. -/
def exchange_clean (r : Row) : String :=
  match r.exchange with
  | none => "nan"
  | some s => lowerStr (pyStrip s)

/-- Source line `df["exchange_clean"].map({...}).fillna("Unknown")`. -/
def country (r : Row) : String :=
  assocGet countryMap (exchange_clean r) "Unknown"

/-- The country classification as the spec words it, for comparison with
`country`: look the trimmed, lower-cased exchange up in the fixed
six-entry table; anything else, null included, maps to "Unknown". -/
def country_spec (exchange : Option String) : String :=
  match exchange with
  | none => "Unknown"
  | some s =>
    let e := lowerStr (pyStrip s)
    if e = "nasdaq" then "USA"
    else if e = "nyse" then "USA"
    else if e = "lse" then "UK"
    else if e = "tse" then "Japan"
    else if e = "hkex" then "Hong Kong"
    else if e = "tsx" then "Canada"
    else "Unknown"

/-- The group keys a pandas `groupby` (default `dropna=True`) produces:
the distinct non-null key values of the table. -/
def groupsOf {κ : Type} [DecidableEq κ] (key : Row → Option κ) (rows : List Row) : List κ :=
  (rows.filterMap key).dedup

/-- The rows a `groupby` places in the group of key value `v`. -/
def groupRows {κ : Type} [DecidableEq κ] (key : Row → Option κ) (rows : List Row) (v : κ) : List Row :=
  rows.filter (fun r => decide (key r = some v))

/-- Group key of the daily view: `groupby(["trade_date", "ticker"])`;
pandas drops a row whose key has a null in either level. -/
def dailyKey (r : Row) : Option (String × String) :=
  match r.trade_date, r.ticker with
  | some d, some t => some (d, t)
  | _, _ => none

/-- Daily view column `gap_up_count = ("gap_up_flag", "sum")`. -/
def daily_gap_up_count (rows : List Row) (g : String × String) : Nat :=
  (groupRows dailyKey rows g).countP gap_up_flag

/-- Daily view column `gap_down_count = ("gap_down_flag", "sum")`. -/
def daily_gap_down_count (rows : List Row) (g : String × String) : Nat :=
  (groupRows dailyKey rows g).countP gap_down_flag

/-- Group key of the ticker view: `groupby("ticker")`. -/
def tickerKey (r : Row) : Option String := r.ticker

/-- Ticker view column `validated_count = ("validated_flag", "sum")`. -/
def ticker_validated_count (rows : List Row) (g : String) : Nat :=
  (groupRows tickerKey rows g).countP validated_flag

/-- Group key of the notes view: `groupby("notes")`. -/
def notesKey (r : Row) : Option String := r.notes

/-- Notes view column `count = ("ticker", "count")`: the pandas `count`
aggregation counts the non-null `ticker` cells of the group. -/
def notes_count (rows : List Row) (g : String) : Nat :=
  (groupRows notesKey rows g).countP (fun r => r.ticker.isSome)

/-- The pandas `mean` aggregation over nullable values: the mean of the
non-null entries, null when there are none. -/
def meanQ (xs : List ℚ) : Option ℚ :=
  if xs.isEmpty then none else some (xs.sum / (xs.length : ℚ))

/-- Notes view column `avg_price_change = ("price_change", "mean")`:
group mean of the precomputed `price_change` column. -/
def notes_avg_price_change (rows : List Row) (g : String) : Option ℚ :=
  meanQ ((groupRows notesKey rows g).filterMap price_change)

/-- The same column as the spec words it: the mean of close minus open
recomputed over the rows of the group (those where both prices exist). -/
def notes_avg_price_change_spec (grp : List Row) : Option ℚ :=
  meanQ (grp.filterMap (fun r =>
    match r.open_price, r.close_price with
    | some o, some c => some (c - o)
    | _, _ => none))

/-- The required-column dictionary `col_renames` of `create_aggregations`. -/
def required_columns : List String :=
  ["ticker", "trade_date", "open_price", "close_price", "volume",
   "sector", "notes", "validated", "exchange"]

/-- The synthesis loop: `if orig not in df.columns: df[orig] = None`
appends every structurally absent required column as an all-null column. -/
def colsAfterSynth (schema : List String) : List String :=
  required_columns.foldl (fun cs c => if cs.contains c then cs else cs ++ [c]) schema

/-- The guard of the daily view, evaluated after the synthesis loop:
`true` when the view is skipped, i.e. when the code prints
"Skipping daily aggregation" instead of computing the view. -/
def daily_skipped (schema : List String) : Bool :=
  !((colsAfterSynth schema).contains "trade_date" &&
    (colsAfterSynth schema).contains "ticker")

/-- Does the first character of the list fail the test `p`
(vacuously true for the empty list)?  Proof infrastructure. -/
def headFails (p : Char → Bool) : List Char → Bool
  | [] => true
  | c :: _ => !(p c)

/-- No two adjacent underscores.  Proof infrastructure for `snakeList`. -/
def NoAdj (l : List Char) : Prop :=
  l.Chain' (fun a b => ¬(a = '_' ∧ b = '_'))

/-- The shape invariant of `snakeList` output: every character is an
underscore or an alphanumeric fixed by lowercasing and is not whitespace,
no two underscores are adjacent, and neither end is an underscore. -/
def GoodSnake (l : List Char) : Prop :=
  (∀ c ∈ l, (c = '_' ∨ isAlnumCh c = true) ∧ loChar c = c ∧ isPySpace c = false) ∧
  NoAdj l ∧
  headFails (fun c => c == '_') l = true ∧
  headFails (fun c => c == '_') l.reverse = true

/-! ### Association-list lookup -/

/-- The lookup `assocGet` either returns the value of a matching entry of the table or,
when no key matches, the default. -/
theorem assocGet_cases {α β : Type} [BEq α] [LawfulBEq α]
    (tbl : List (α × β)) (a : α) (d : β) :
    (a, assocGet tbl a d) ∈ tbl ∨ (assocGet tbl a d = d ∧ ∀ p ∈ tbl, p.1 ≠ a) := by
  induction tbl with
  | nil => exact Or.inr ⟨rfl, by simp⟩
  | cons p t ih =>
    obtain ⟨k, v⟩ := p
    by_cases hk : (a == k) = true
    · left
      have hak : a = k := beq_iff_eq.mp hk
      simp only [assocGet, hk, if_true]
      exact hak ▸ List.mem_cons_self _ _
    · have hk' : (a == k) = false := by simpa using hk
      rcases ih with hmem | ⟨hd, hall⟩
      · left
        simp only [assocGet, hk', Bool.false_eq_true, if_false]
        exact List.mem_cons_of_mem _ hmem
      · right
        refine ⟨by simp [assocGet, hk', hd], ?_⟩
        intro q hq
        rcases List.mem_cons.mp hq with rfl | hqt
        · intro e
          have e' : k = a := e
          rw [e'] at hk'
          simp at hk'
        · exact hall q hqt

/-! ### Character-level facts about the ASCII casing tables -/

/-- Every lowercase letter produced by `toLowerPairs` is alphanumeric, is
not whitespace, is fixed by `loChar`, and is not an underscore. -/
theorem toLowerPairs_vals :
    ∀ p ∈ toLowerPairs, isAlnumCh p.2 = true ∧ isPySpace p.2 = false ∧
      loChar p.2 = p.2 ∧ p.2 ≠ '_' := by decide

/-- Every uppercase letter produced by `toUpperPairs` is fixed by `upChar`. -/
theorem toUpperPairs_vals : ∀ p ∈ toUpperPairs, upChar p.2 = p.2 := by decide

/-- An alphanumeric character is not Python whitespace. -/
theorem alnum_not_space (c : Char) (h : isAlnumCh c = true) : isPySpace c = false := by
  by_contra hc
  rw [Bool.not_eq_false] at hc
  unfold isPySpace at hc
  simp only [Bool.or_eq_true, beq_iff_eq] at hc
  rcases hc with ((((h1 | h1) | h1) | h1) | h1) | h1 <;> subst h1 <;> revert h <;> decide

/-- An alphanumeric character is not an underscore. -/
theorem alnum_ne_underscore (c : Char) (h : isAlnumCh c = true) : c ≠ '_' := by
  intro e
  subst e
  revert h
  decide

/-- Lowercasing is idempotent. -/
theorem loChar_loChar (c : Char) : loChar (loChar c) = loChar c := by
  rcases assocGet_cases toLowerPairs c c with hmem | ⟨hfix, _⟩
  · exact (toLowerPairs_vals _ hmem).2.2.1
  · unfold loChar
    rw [show assocGet toLowerPairs c c = c from hfix]
    exact hfix

/-- Uppercasing is idempotent. -/
theorem upChar_upChar (c : Char) : upChar (upChar c) = upChar c := by
  rcases assocGet_cases toUpperPairs c c with hmem | ⟨hfix, _⟩
  · exact toUpperPairs_vals _ hmem
  · unfold upChar
    rw [show assocGet toUpperPairs c c = c from hfix]
    exact hfix

/-- Lowercasing maps nothing new onto the underscore. -/
theorem loChar_eq_underscore {c : Char} (h : loChar c = '_') : c = '_' := by
  rcases assocGet_cases toLowerPairs c c with hmem | ⟨hfix, _⟩
  · exact absurd h (toLowerPairs_vals _ hmem).2.2.2
  · rw [← hfix]
    exact h

/-- Lowercasing keeps the `snakeList` character invariant. -/
theorem loChar_keeps (c : Char) (h : c = '_' ∨ isAlnumCh c = true) :
    (loChar c = '_' ∨ isAlnumCh (loChar c) = true) ∧ loChar (loChar c) = loChar c ∧
      isPySpace (loChar c) = false := by
  rcases assocGet_cases toLowerPairs c c with hmem | ⟨hfix, _⟩
  · have hv := toLowerPairs_vals _ hmem
    exact ⟨Or.inr hv.1, hv.2.2.1, hv.2.1⟩
  · have hfix' : loChar c = c := hfix
    rw [hfix']
    refine ⟨h, hfix', ?_⟩
    rcases h with rfl | ha
    · decide
    · exact alnum_not_space c ha

/-- The map `upperStr` is idempotent. -/
theorem upperStr_idem (s : String) : upperStr (upperStr s) = upperStr s := by
  show (⟨(s.data.map upChar).map upChar⟩ : String) = ⟨s.data.map upChar⟩
  rw [List.map_map]
  exact congrArg (fun f => (⟨List.map f s.data⟩ : String)) (funext upChar_upChar)

/-- The map `lowerStr` is idempotent. -/
theorem lowerStr_idem (s : String) : lowerStr (lowerStr s) = lowerStr s := by
  show (⟨(s.data.map loChar).map loChar⟩ : String) = ⟨s.data.map loChar⟩
  rw [List.map_map]
  exact congrArg (fun f => (⟨List.map f s.data⟩ : String)) (funext loChar_loChar)

/-! ### The country lookup -/

/-- Evaluating the country table lookup as a chain of comparisons. -/
theorem countryMap_eval (x : String) :
    assocGet countryMap x "Unknown" =
      (if x = "nasdaq" then "USA"
       else if x = "nyse" then "USA"
       else if x = "lse" then "UK"
       else if x = "tse" then "Japan"
       else if x = "hkex" then "Hong Kong"
       else if x = "tsx" then "Canada"
       else "Unknown") := by
  simp only [countryMap, assocGet, beq_iff_eq]

/-- C8: for every row, the derived country field equals the fixed six-entry
lookup applied to the trimmed, lower-cased exchange value, and equals
"Unknown" for any value outside the table, including a null exchange. -/
theorem claim_C8 (r : Row) : country r = country_spec r.exchange := by
  cases hx : r.exchange with
  | none =>
    show assocGet countryMap (exchange_clean r) "Unknown" = _
    unfold exchange_clean
    rw [hx]
    decide
  | some s =>
    show assocGet countryMap (exchange_clean r) "Unknown" = _
    unfold exchange_clean country_spec
    rw [hx]
    exact countryMap_eval (lowerStr (pyStrip s))

/-- C9: `price_change` is null iff an operand is null, else exactly the
difference of close and open. -/
theorem claim_C9 (r : Row) :
    (price_change r = none ↔ r.open_price = none ∨ r.close_price = none) ∧
    (∀ a b : ℚ, r.open_price = some a → r.close_price = some b →
      price_change r = some (b - a)) := by
  rcases ho : r.open_price with _ | a' <;> rcases hc : r.close_price with _ | b' <;>
    simp [price_change, ho, hc]

/-- C9 witness: the claim evaluated on a concrete row. -/
theorem claim_C9_witness :
    price_change (Row.mk none none (some 150) (some (303 / 2)) none none none none none)
      = some (3 / 2) := by
  have h := (claim_C9 (Row.mk none none (some 150) (some (303 / 2)) none none none none none)).2
    150 (303 / 2) rfl rfl
  rw [h]
  norm_num

/-- C6: a trimmed cell equal to one of the eight missing tokens becomes
null; any other value survives, changed only by the casing map. -/
theorem claim_C6 (col s : String) (h : pyStrip s = s) :
    (missing_tokens.contains s = true → clean_cell col s = none) ∧
    (missing_tokens.contains s = false →
      clean_cell col s = some (upperStr s) ∨ clean_cell col s = some (lowerStr s)) := by
  constructor
  · intro hm
    have hm' : s ∈ missing_tokens := by simpa using hm
    simp [clean_cell, h, hm']
  · intro hm
    have hm' : s ∉ missing_tokens := by simpa using hm
    by_cases hcol : strContains col "ticker" = true
    · left
      simp [clean_cell, h, hm', hcol]
    · right
      simp [clean_cell, h, hm', hcol]

/-- C6 witness: the token "NA" is canonicalized to null. -/
theorem claim_C6_witness : pyStrip "NA" = "NA" ∧ clean_cell "notes" "NA" = none :=
  ⟨by decide, (claim_C6 "notes" "NA" (by decide)).1 (by decide)⟩

/-- C7: a cleaned non-null cell of a column whose name contains "ticker" is
fully upper-case (fixed under the uppercasing map); a cleaned non-null cell
of any other column is fully lower-case; nulls pass through unchanged. -/
theorem claim_C7 (col raw t : String) (h : clean_cell col raw = some t) :
    (strContains col "ticker" = true → upperStr t = t) ∧
    (strContains col "ticker" = false → lowerStr t = t) := by
  by_cases hm : pyStrip raw ∈ missing_tokens
  · simp [clean_cell, hm] at h
  · by_cases hcol : strContains col "ticker" = true
    · simp [clean_cell, hm, hcol] at h
      constructor
      · intro _
        rw [← h]
        exact upperStr_idem _
      · intro hcf
        rw [hcol] at hcf
        cases hcf
    · simp [clean_cell, hm, hcol] at h
      constructor
      · intro hct
        exact absurd hct hcol
      · intro _
        rw [← h]
        exact lowerStr_idem _

/-- C7 witness: a ticker column cell is upper-cased and then fixed. -/
theorem claim_C7_witness : strContains "my_ticker" "ticker" = true ∧ upperStr "AAPL" = "AAPL" :=
  ⟨by decide, (claim_C7 "my_ticker" "aapl" "AAPL" (by decide)).1 (by decide)⟩

/-! ### Column synthesis and the never-taken skip branches -/

/-- Folding the synthesis step keeps every name already present. -/
theorem mem_foldl_keep (cols : List String) (c : String) :
    ∀ init, c ∈ init →
      c ∈ cols.foldl (fun cs x => if cs.contains x then cs else cs ++ [x]) init := by
  induction cols with
  | nil =>
    intro init hc
    simpa using hc
  | cons x t ih =>
    intro init hc
    simp only [List.foldl_cons]
    apply ih
    by_cases hx : init.contains x = true
    · rw [if_pos hx]
      exact hc
    · rw [if_neg hx]
      exact List.mem_append_left _ hc

/-- Folding the synthesis step adds every column of the fold list. -/
theorem mem_foldl_adds (cols : List String) (c : String) :
    c ∈ cols →
      ∀ init, c ∈ cols.foldl (fun cs x => if cs.contains x then cs else cs ++ [x]) init := by
  induction cols with
  | nil =>
    intro hc
    cases hc
  | cons x t ih =>
    intro hc init
    simp only [List.foldl_cons]
    rcases List.mem_cons.mp hc with rfl | hct
    · apply mem_foldl_keep
      by_cases hx : init.contains c = true
      · rw [if_pos hx]
        simpa using hx
      · rw [if_neg hx]
        exact List.mem_append_right _ (List.mem_singleton.mpr rfl)
    · exact ih hct _

/-- C2 (amended): the synthesis loop guarantees every required column is
present afterwards, so no view is ever skipped; a view whose group-key
column was synthesized is still computed (it is empty because null group
keys are dropped), and the pipeline continues. -/
theorem claim_C2_amended (schema : List String) :
    (∀ c ∈ required_columns, (colsAfterSynth schema).contains c = true) ∧
    daily_skipped schema = false := by
  have hall : ∀ c ∈ required_columns, (colsAfterSynth schema).contains c = true := by
    intro c hc
    have hmem := mem_foldl_adds required_columns c hc schema
    unfold colsAfterSynth
    simpa using hmem
  refine ⟨hall, ?_⟩
  unfold daily_skipped
  rw [hall "trade_date" (by decide), hall "ticker" (by decide)]
  rfl

/-- C2 witness: a schema structurally missing `trade_date` still does not
trigger the skip branch. -/
theorem claim_C2_witness :
    (colsAfterSynth ["notes"]).contains "trade_date" = true ∧
      daily_skipped ["notes"] = false :=
  ⟨(claim_C2_amended ["notes"]).1 "trade_date" (by decide), (claim_C2_amended ["notes"]).2⟩

/-- C2 counterexample: the input schema `["notes"]` has no `trade_date`
column at all, yet the daily view is not skipped (the claim says it is
skipped with a report). -/
theorem claim_C2_cex :
    (["notes"] : List String).contains "trade_date" = false ∧
      daily_skipped ["notes"] = false := by
  decide

/-- C3 (amended): the header normalizer maps each header independently and
reports nothing; distinct headers that normalize to the same canonical name
are silently kept as duplicate columns, never merged and never an error. -/
theorem claim_C3_amended (hs : List String) :
    (normalizeHeaders hs).length = hs.length ∧
    ∀ i : Nat, (normalizeHeaders hs).get? i = (hs.get? i).map to_snake_case := by
  refine ⟨by simp [normalizeHeaders], ?_⟩
  intro i
  simp [normalizeHeaders]

/-- C3 counterexample: the distinct raw headers "A B" and "A_B" normalize
to the same canonical name, and the normalizer silently produces the
duplicated header list instead of reporting a schema error. -/
theorem claim_C3_cex :
    "A B" ≠ "A_B" ∧ to_snake_case "A B" = "a_b" ∧ to_snake_case "A_B" = "a_b" ∧
      normalizeHeaders ["A B", "A_B"] = ["a_b", "a_b"] := by
  decide

/-! ### Sums of count columns over the groups of a view -/

/-- Mapped pointwise sums split. -/
theorem sum_map_add_nat {α : Type} (l : List α) (f g : α → Nat) :
    (l.map (fun x => f x + g x)).sum = (l.map f).sum + (l.map g).sum := by
  induction l with
  | nil => rfl
  | cons a t ih =>
    simp only [List.map_cons, List.sum_cons, ih]
    omega

/-- Pointwise-equal maps agree. -/
theorem map_congr_fun {α β : Type} (l : List α) (f g : α → β) (h : ∀ a ∈ l, f a = g a) :
    l.map f = l.map g := by
  induction l with
  | nil => rfl
  | cons a t ih =>
    simp only [List.map_cons]
    rw [h a (List.mem_cons_self a t), ih (fun x hx => h x (List.mem_cons_of_mem _ hx))]

/-- Over a duplicate-free key list, the indicator of one contained key
sums to one. -/
theorem sum_map_ite_eq {κ : Type} [DecidableEq κ] (keys : List κ) (v : κ)
    (hnd : keys.Nodup) (hv : v ∈ keys) :
    (keys.map (fun u => if u = v then (1 : Nat) else 0)).sum = 1 := by
  induction keys with
  | nil => cases hv
  | cons a t ih =>
    rcases List.nodup_cons.mp hnd with ⟨han, hnt⟩
    rcases List.mem_cons.mp hv with rfl | hvt
    · simp only [List.map_cons, List.sum_cons, if_pos rfl]
      have hz : (t.map (fun u => if u = v then (1 : Nat) else 0)).sum = 0 := by
        apply List.sum_eq_zero
        intro x hx
        rcases List.mem_map.mp hx with ⟨u, hu, rfl⟩
        rw [if_neg]
        intro e
        exact han (e ▸ hu)
      rw [hz]
      simp
    · have ha : a ≠ v := fun e => han (e ▸ hvt)
      simp only [List.map_cons, List.sum_cons, if_neg ha, ih hnt hvt]

/-- The row indicator summed over all keys of a duplicate-free covering
key list collapses to a single test on the row. -/
theorem sum_map_keyind {κ : Type} [DecidableEq κ] (keys : List κ) (hnd : keys.Nodup)
    (w : Option κ) (hw : ∀ v, w = some v → v ∈ keys) (c : Bool) :
    (keys.map (fun v => if w = some v ∧ c = true then (1 : Nat) else 0)).sum =
      if w.isSome && c then 1 else 0 := by
  cases c with
  | false => simp
  | true =>
    cases w with
    | none => simp
    | some v₀ =>
      have hv := hw v₀ rfl
      have htop : ((some v₀).isSome && true) = true := rfl
      have hmap : keys.map (fun v => if some v₀ = some v ∧ true = true then (1 : Nat) else 0)
          = keys.map (fun u => if u = v₀ then (1 : Nat) else 0) := by
        apply map_congr_fun
        intro u _
        by_cases hu : u = v₀
        · subst hu
          simp
        · rw [if_neg (fun hc => hu (Option.some.inj hc.1).symm), if_neg hu]
      rw [if_pos htop, hmap, sum_map_ite_eq keys v₀ hnd hv]

/-- Summing a per-group count over a duplicate-free key list that covers
every non-null row key equals counting over rows with a non-null key. -/
theorem sum_over_keys {α κ : Type} [DecidableEq κ] (key : α → Option κ) (p : α → Bool) :
    ∀ (rows : List α) (keys : List κ), keys.Nodup →
      (∀ r ∈ rows, ∀ v, key r = some v → v ∈ keys) →
      (keys.map (fun v => (rows.filter (fun r => decide (key r = some v))).countP p)).sum =
        rows.countP (fun r => (key r).isSome && p r) := by
  intro rows
  induction rows with
  | nil =>
    intro keys _ _
    simp
  | cons r rows ih =>
    intro keys hnd hcov
    have hstep : ∀ v : κ,
        ((r :: rows).filter (fun x => decide (key x = some v))).countP p =
          (if key r = some v ∧ p r = true then 1 else 0) +
            (rows.filter (fun x => decide (key x = some v))).countP p := by
      intro v
      by_cases hk : key r = some v <;> by_cases hp : p r = true <;>
        (simp [List.filter_cons, List.countP_cons, hk, hp]; try omega)
    rw [map_congr_fun keys _ _ (fun v _ => hstep v), sum_map_add_nat]
    rw [ih keys hnd (fun x hx => hcov x (List.mem_cons_of_mem _ hx))]
    rw [List.countP_cons]
    rw [sum_map_keyind keys hnd (key r) (fun v hv => hcov r (List.mem_cons_self _ _) v hv) (p r)]
    by_cases hb : ((key r).isSome && p r) = true
    · rw [if_pos hb]
      omega
    · rw [if_neg hb]
      omega

/-- Summing any boolean-count column of a view over all its groups equals
counting, over the whole table, the rows that satisfy the predicate and
have a non-null group key. -/
theorem sum_over_groups {κ : Type} [DecidableEq κ] (key : Row → Option κ) (p : Row → Bool)
    (rows : List Row) :
    ((groupsOf key rows).map (fun v => (groupRows key rows v).countP p)).sum =
      rows.countP (fun r => (key r).isSome && p r) := by
  unfold groupsOf groupRows
  exact sum_over_keys key p rows _ (List.nodup_dedup _)
    (fun r hr v hv => List.mem_dedup.mpr (List.mem_filterMap.mpr ⟨r, hr, hv⟩))

/-- C1 (amended): rows with a null group key are dropped from a view (they
do not form their own group), so summing a count-type column over all
groups of a view equals the corresponding count over the rows of the
CleanRecord table whose group keys are all non-null — shown for the daily
view gap-up and gap-down counts, the ticker view validated count, and the
notes view count. -/
theorem claim_C1_amended (rows : List Row) :
    ((groupsOf dailyKey rows).map (fun g => daily_gap_up_count rows g)).sum =
        rows.countP (fun r => (dailyKey r).isSome && gap_up_flag r) ∧
    ((groupsOf dailyKey rows).map (fun g => daily_gap_down_count rows g)).sum =
        rows.countP (fun r => (dailyKey r).isSome && gap_down_flag r) ∧
    ((groupsOf tickerKey rows).map (fun g => ticker_validated_count rows g)).sum =
        rows.countP (fun r => (tickerKey r).isSome && validated_flag r) ∧
    ((groupsOf notesKey rows).map (fun g => notes_count rows g)).sum =
        rows.countP (fun r => (notesKey r).isSome && r.ticker.isSome) :=
  ⟨sum_over_groups dailyKey gap_up_flag rows, sum_over_groups dailyKey gap_down_flag rows,
    sum_over_groups tickerKey validated_flag rows,
    sum_over_groups notesKey (fun r => r.ticker.isSome) rows⟩

/-- C1 counterexample: a one-row table whose row has a gap-up note but a
null trade date.  The daily view has no groups at all (the null-key row
does not form its own group), so the view-wide gap-up total is 0 while the
whole-table gap-up count is 1. -/
theorem claim_C1_cex :
    gap_up_flag (Row.mk (some "AAPL") none none none none none (some "gap up move") none none)
        = true ∧
    groupsOf dailyKey
        [Row.mk (some "AAPL") none none none none none (some "gap up move") none none] = [] ∧
    ((groupsOf dailyKey
        [Row.mk (some "AAPL") none none none none none (some "gap up move") none none]).map
      (fun g => daily_gap_up_count
        [Row.mk (some "AAPL") none none none none none (some "gap up move") none none] g)).sum
        = 0 ∧
    ([Row.mk (some "AAPL") none none none none none (some "gap up move") none none] :
        List Row).countP gap_up_flag = 1 := by
  decide

/-- C4 (amended): the notes view has one group per distinct non-null notes
string; its count column equals the number of rows of the group whose
ticker is non-null (not the row count of the group); and its
avg_price_change equals the mean of close minus open recomputed over the
rows of the group where both prices are present. -/
theorem claim_C4_amended (rows : List Row) (g : String) :
    (groupsOf notesKey rows).Nodup ∧
    (g ∈ groupsOf notesKey rows ↔ some g ∈ rows.map Row.notes) ∧
    notes_count rows g = (groupRows notesKey rows g).countP (fun r => r.ticker.isSome) ∧
    notes_avg_price_change rows g = notes_avg_price_change_spec (groupRows notesKey rows g) := by
  refine ⟨List.nodup_dedup _, ?_, rfl, rfl⟩
  unfold groupsOf notesKey
  rw [List.mem_dedup, List.mem_filterMap]
  constructor
  · rintro ⟨r, hr, hg⟩
    exact List.mem_map.mpr ⟨r, hr, hg⟩
  · intro hm
    rcases List.mem_map.mp hm with ⟨r, hr, hg⟩
    exact ⟨r, hr, hg⟩

/-- C4 counterexample: a one-row table whose row has notes "a" but a null
ticker.  The group of "a" contains one row, yet the count column of the
notes view is 0 because the pandas count aggregation counts non-null
ticker cells, contradicting count-equals-group-row-count. -/
theorem claim_C4_cex :
    notes_count [Row.mk none none (some 1) (some 2) none none (some "a") none none] "a" = 0 ∧
    (groupRows notesKey
        [Row.mk none none (some 1) (some 2) none none (some "a") none none] "a").length = 1 := by
  decide

/-! ### Strip, head, and adjacency lemmas for the snake-case normalizer -/

/-- A list none of whose characters match `p` has a failing head. -/
theorem headFails_of_all {p : Char → Bool} {l : List Char}
    (h : ∀ c ∈ l, p c = false) : headFails p l = true := by
  cases l with
  | nil => rfl
  | cons c t => simp [headFails, h c (List.mem_cons_self c t)]

/-- The function `dropWhile` is the identity when the head already fails. -/
theorem dropWhile_eq_self_of_headFails {p : Char → Bool} {l : List Char}
    (h : headFails p l = true) : l.dropWhile p = l := by
  cases l with
  | nil => rfl
  | cons c t =>
    have hc : p c = false := by simpa [headFails] using h
    simp [List.dropWhile_cons, hc]

/-- Stripping both ends is the identity when both ends already fail. -/
theorem stripEnds_eq_self {p : Char → Bool} {l : List Char}
    (h1 : headFails p l = true) (h2 : headFails p l.reverse = true) :
    stripEnds p l = l := by
  unfold stripEnds dropEndWhile
  rw [dropWhile_eq_self_of_headFails h1, dropWhile_eq_self_of_headFails h2,
    List.reverse_reverse]

/-- Stripping both ends is the identity when no character matches. -/
theorem stripEnds_eq_self_of_all {p : Char → Bool} {l : List Char}
    (h : ∀ c ∈ l, p c = false) : stripEnds p l = l :=
  stripEnds_eq_self (headFails_of_all h)
    (headFails_of_all (fun c hc => h c (List.mem_reverse.mp hc)))

/-- Characters survive `dropWhile` only from the original list. -/
theorem mem_of_mem_dropWhile {p : Char → Bool} {l : List Char} {c : Char}
    (h : c ∈ l.dropWhile p) : c ∈ l := by
  have hsplit := List.takeWhile_append_dropWhile (p := p) (l := l)
  rw [← hsplit]
  exact List.mem_append_right _ h

/-- Characters survive `stripEnds` only from the original list. -/
theorem mem_of_mem_stripEnds {p : Char → Bool} {l : List Char} {c : Char}
    (h : c ∈ stripEnds p l) : c ∈ l := by
  unfold stripEnds dropEndWhile at h
  have h1 : c ∈ (l.dropWhile p).reverse.dropWhile p := List.mem_reverse.mp h
  have h2 : c ∈ (l.dropWhile p).reverse := mem_of_mem_dropWhile h1
  exact mem_of_mem_dropWhile (List.mem_reverse.mp h2)

/-- The head of a `dropWhile` result fails the predicate. -/
theorem headFails_dropWhile (p : Char → Bool) (l : List Char) :
    headFails p (l.dropWhile p) = true := by
  induction l with
  | nil => rfl
  | cons c t ih =>
    by_cases hc : p c = true
    · simpa [List.dropWhile_cons, hc] using ih
    · have hc' : p c = false := by simpa using hc
      simp [List.dropWhile_cons, hc', headFails]

/-- A failing head of a concatenation gives a failing head of its front. -/
theorem headFails_append {p : Char → Bool} {l₁ l₂ : List Char}
    (h : headFails p (l₁ ++ l₂) = true) : headFails p l₁ = true := by
  cases l₁ with
  | nil => rfl
  | cons c t => simpa [headFails] using h

/-- The last character of a `stripEnds p` result fails `p`. -/
theorem headFails_stripEnds_rev (p : Char → Bool) (l : List Char) :
    headFails p (stripEnds p l).reverse = true := by
  unfold stripEnds dropEndWhile
  rw [List.reverse_reverse]
  exact headFails_dropWhile p _

/-- The first character of a `stripEnds p` result fails `p`. -/
theorem headFails_stripEnds (p : Char → Bool) (l : List Char) :
    headFails p (stripEnds p l) = true := by
  unfold stripEnds dropEndWhile
  have hsplit := List.takeWhile_append_dropWhile (p := p) (l := (l.dropWhile p).reverse)
  have hA : l.dropWhile p
      = ((l.dropWhile p).reverse.dropWhile p).reverse
          ++ ((l.dropWhile p).reverse.takeWhile p).reverse := by
    have h := congrArg List.reverse hsplit
    rw [List.reverse_append, List.reverse_reverse] at h
    exact h.symm
  have hfA : headFails p (l.dropWhile p) = true := headFails_dropWhile p l
  rw [hA] at hfA
  exact headFails_append hfA

/-- Adjacent-underscore freedom transfers to the reverse. -/
theorem noAdj_reverse {l : List Char} (h : NoAdj l) : NoAdj l.reverse := by
  unfold NoAdj at h ⊢
  rw [List.chain'_reverse]
  exact h.imp (fun a b hab hba => hab ⟨hba.2, hba.1⟩)

/-- Adjacent-underscore freedom survives `dropWhile`. -/
theorem noAdj_dropWhile {p : Char → Bool} {l : List Char} (h : NoAdj l) :
    NoAdj (l.dropWhile p) := by
  have hsplit := List.takeWhile_append_dropWhile (p := p) (l := l)
  have h2 : NoAdj (l.takeWhile p ++ l.dropWhile p) := by
    unfold NoAdj
    rw [hsplit]
    exact h
  exact List.Chain'.right_of_append h2

/-- Adjacent-underscore freedom survives `stripEnds`. -/
theorem noAdj_stripEnds {p : Char → Bool} {l : List Char} (h : NoAdj l) :
    NoAdj (stripEnds p l) := by
  unfold stripEnds dropEndWhile
  exact noAdj_reverse (noAdj_dropWhile (noAdj_reverse (noAdj_dropWhile h)))

/-- Adjacent-underscore freedom survives lowercasing. -/
theorem noAdj_map_loChar {l : List Char} (h : NoAdj l) : NoAdj (l.map loChar) := by
  unfold NoAdj at h ⊢
  rw [List.chain'_map]
  exact h.imp
    (fun a b hab hlo => hab ⟨loChar_eq_underscore hlo.1, loChar_eq_underscore hlo.2⟩)

/-- A failing head (for the underscore test) bounds the optional head. -/
theorem head_cond_of_headFails {l : List Char}
    (h : headFails (fun c => c == '_') l = true) : ∀ y ∈ l.head?, y ≠ '_' := by
  cases l with
  | nil =>
    intro y hy
    cases hy
  | cons c t =>
    intro y hy
    have hyc : c = y := by simpa using hy
    subst hyc
    intro e
    rw [e] at h
    simp [headFails] at h

/-- Behind a leading underscore of an adjacency-free list, the tail starts
with a non-underscore. -/
theorem headFails_of_noAdj_cons {c : Char} {t : List Char}
    (h : NoAdj (c :: t)) (hc : c = '_') :
    headFails (fun x => x == '_') t = true := by
  rcases List.chain'_cons'.mp h with ⟨hhead, _⟩
  cases t with
  | nil => rfl
  | cons d t' =>
    have hd := hhead d rfl
    subst hc
    have hdu : d ≠ '_' := fun e => hd ⟨rfl, e⟩
    simp [headFails, hdu]

/-! ### The non-alphanumeric-run substitution -/

/-- Every character the substitution pass emits is an underscore or
alphanumeric. -/
theorem subAux_chars (b : Bool) (l : List Char) :
    ∀ c ∈ subAux b l, c = '_' ∨ isAlnumCh c = true := by
  induction l generalizing b with
  | nil =>
    intro c hc
    cases hc
  | cons d t ih =>
    intro c hc
    simp only [subAux] at hc
    by_cases hd : isAlnumCh d = true
    · rw [if_pos hd] at hc
      rcases List.mem_cons.mp hc with rfl | hc'
      · exact Or.inr hd
      · exact ih false c hc'
    · rw [if_neg hd] at hc
      cases b with
      | true => exact ih true c (by simpa using hc)
      | false =>
        rcases List.mem_cons.mp (by simpa using hc) with rfl | hc'
        · exact Or.inl rfl
        · exact ih true c hc'

/-- The substitution pass emits no two adjacent underscores, and in the
in-run state it never starts with an underscore. -/
theorem subAux_noAdj (l : List Char) :
    NoAdj (subAux false l) ∧ NoAdj (subAux true l) ∧
      headFails (fun c => c == '_') (subAux true l) = true := by
  induction l with
  | nil => exact ⟨List.chain'_nil, List.chain'_nil, rfl⟩
  | cons d t ih =>
    obtain ⟨ihf, iht, ihh⟩ := ih
    by_cases hd : isAlnumCh d = true
    · have hdu : d ≠ '_' := alnum_ne_underscore d hd
      have hcons : NoAdj (d :: subAux false t) :=
        List.chain'_cons'.mpr ⟨fun y _ hpair => hdu hpair.1, ihf⟩
      refine ⟨?_, ?_, ?_⟩
      · simp only [subAux, if_pos hd]
        exact hcons
      · simp only [subAux, if_pos hd]
        exact hcons
      · simp only [subAux, if_pos hd]
        simp [headFails, hdu]
    · have hfalse : subAux false (d :: t) = '_' :: subAux true t := by
        simp [subAux, hd]
      have htrue : subAux true (d :: t) = subAux true t := by
        simp [subAux, hd]
      refine ⟨?_, ?_, ?_⟩
      · rw [hfalse]
        exact List.chain'_cons'.mpr
          ⟨fun y hy hpair => head_cond_of_headFails ihh y hy hpair.2, iht⟩
      · rw [htrue]
        exact iht
      · rw [htrue]
        exact ihh

/-- The underscore-collapse pass is the identity on adjacency-free input. -/
theorem collapse_eq_self : ∀ l : List Char, NoAdj l →
    collapseAux false l = l ∧
      (headFails (fun c => c == '_') l = true → collapseAux true l = l) := by
  intro l
  induction l with
  | nil => exact fun _ => ⟨rfl, fun _ => rfl⟩
  | cons c t ih =>
    intro h
    have ht : NoAdj t := (List.chain'_cons'.mp h).2
    obtain ⟨ihf, iht⟩ := ih ht
    by_cases hc : c = '_'
    · subst hc
      have htt : collapseAux true t = t := iht (headFails_of_noAdj_cons h rfl)
      constructor
      · simp [collapseAux, htt]
      · intro hf
        simp [headFails] at hf
    · have hcb : (c == '_') = false := by simpa using hc
      constructor
      · simp [collapseAux, hcb, ihf]
      · intro _
        simp [collapseAux, hcb, ihf]

/-- The substitution pass is the identity on adjacency-free input built of
underscores and alphanumerics. -/
theorem subAux_eq_self : ∀ l : List Char,
    (∀ c ∈ l, c = '_' ∨ isAlnumCh c = true) → NoAdj l →
    subAux false l = l ∧
      (headFails (fun c => c == '_') l = true → subAux true l = l) := by
  intro l
  induction l with
  | nil => exact fun _ _ => ⟨rfl, fun _ => rfl⟩
  | cons c t ih =>
    intro hall h
    have ht : NoAdj t := (List.chain'_cons'.mp h).2
    have htall : ∀ x ∈ t, x = '_' ∨ isAlnumCh x = true :=
      fun x hx => hall x (List.mem_cons_of_mem _ hx)
    obtain ⟨ihf, iht⟩ := ih htall ht
    by_cases hd : isAlnumCh c = true
    · constructor
      · simp [subAux, hd, ihf]
      · intro _
        simp [subAux, hd, ihf]
    · have hcu : c = '_' := by
        rcases hall c (List.mem_cons_self _ _) with h1 | h1
        · exact h1
        · exact absurd h1 hd
      subst hcu
      have htt : subAux true t = t := iht (headFails_of_noAdj_cons h rfl)
      constructor
      · simp [subAux, hd, htt]
      · intro hf
        simp [headFails] at hf

/-- Lowercasing is the identity on a list of fixed characters. -/
theorem map_loChar_eq_self {l : List Char} (h : ∀ c ∈ l, loChar c = c) :
    l.map loChar = l := by
  rw [map_congr_fun l loChar id (fun a ha => h a ha), List.map_id]

/-- Every `snakeList` output satisfies the shape invariant. -/
theorem snakeList_good (l : List Char) : GoodSnake (snakeList l) := by
  have hchars := subAux_chars false (stripEnds isPySpace l)
  obtain ⟨hSf, _, _⟩ := subAux_noAdj (stripEnds isPySpace l)
  have hcoll := (collapse_eq_self _ hSf).1
  have hsnake : snakeList l =
      stripEnds (fun c => c == '_')
        ((subAux false (stripEnds isPySpace l)).map loChar) := by
    unfold snakeList
    rw [hcoll]
  have hMchars : ∀ c ∈ (subAux false (stripEnds isPySpace l)).map loChar,
      (c = '_' ∨ isAlnumCh c = true) ∧ loChar c = c ∧ isPySpace c = false := by
    intro c hc
    rcases List.mem_map.mp hc with ⟨c₀, hc₀, rfl⟩
    have hkeep := loChar_keeps c₀ (hchars c₀ hc₀)
    exact ⟨hkeep.1, hkeep.2.1, hkeep.2.2⟩
  have hMnoAdj : NoAdj ((subAux false (stripEnds isPySpace l)).map loChar) :=
    noAdj_map_loChar hSf
  rw [hsnake]
  exact ⟨fun c hc => hMchars c (mem_of_mem_stripEnds hc),
    noAdj_stripEnds hMnoAdj,
    headFails_stripEnds _ _,
    headFails_stripEnds_rev _ _⟩

/-- The normalizer `snakeList` is the identity on lists satisfying the shape invariant. -/
theorem snakeList_eq_self (l : List Char) (h : GoodSnake l) : snakeList l = l := by
  obtain ⟨hchars, hnoadj, hhead, hrev⟩ := h
  have hW : stripEnds isPySpace l = l :=
    stripEnds_eq_self_of_all (fun c hc => (hchars c hc).2.2)
  have hsub : subAux false l = l :=
    (subAux_eq_self l (fun c hc => (hchars c hc).1) hnoadj).1
  have hcoll : collapseAux false l = l := (collapse_eq_self l hnoadj).1
  have hmap : l.map loChar = l := map_loChar_eq_self (fun c hc => (hchars c hc).2.1)
  have hstrip : stripEnds (fun c => c == '_') l = l := stripEnds_eq_self hhead hrev
  unfold snakeList
  rw [hW, hsub, hcoll, hmap, hstrip]

/-- The normalizer `snakeList` is idempotent. -/
theorem snakeList_idem (l : List Char) : snakeList (snakeList l) = snakeList l :=
  snakeList_eq_self _ (snakeList_good l)

/-- C5: header normalization is idempotent: normalizing a string twice
yields the same result as normalizing it once, so an already-canonical
name is returned unchanged. -/
theorem claim_C5 (s : String) : to_snake_case (to_snake_case s) = to_snake_case s :=
  congrArg (fun l => (⟨l⟩ : String)) (snakeList_idem s.data)

/-! ### Headers with no alphanumeric characters -/

/-- In the in-run state the substitution pass drops an all-non-alphanumeric
list entirely. -/
theorem subAux_true_nil : ∀ l : List Char,
    (∀ c ∈ l, isAlnumCh c = false) → subAux true l = [] := by
  intro l
  induction l with
  | nil => exact fun _ => rfl
  | cons c t ih =>
    intro h
    have hc : isAlnumCh c = false := h c (List.mem_cons_self _ _)
    simp [subAux, hc, ih (fun x hx => h x (List.mem_cons_of_mem _ hx))]

/-- The normalizer `snakeList` maps a list with no alphanumeric characters to empty. -/
theorem snakeList_nil_of_no_alnum (l : List Char)
    (h : ∀ c ∈ l, isAlnumCh c = false) : snakeList l = [] := by
  have hW : ∀ c ∈ stripEnds isPySpace l, isAlnumCh c = false :=
    fun c hc => h c (mem_of_mem_stripEnds hc)
  have hsub : subAux false (stripEnds isPySpace l) = [] ∨
      subAux false (stripEnds isPySpace l) = ['_'] := by
    cases hWl : stripEnds isPySpace l with
    | nil => exact Or.inl rfl
    | cons c t =>
      rw [hWl] at hW
      have hc : isAlnumCh c = false := hW c (List.mem_cons_self _ _)
      have ht : subAux true t = [] :=
        subAux_true_nil t (fun x hx => hW x (List.mem_cons_of_mem _ hx))
      right
      simp [subAux, hc, ht]
  unfold snakeList
  rcases hsub with h0 | h1
  · rw [h0]
    rfl
  · rw [h1]
    decide

/-- C10: a header containing no alphanumeric character normalizes to the
empty string, so any two such headers collide on the same (empty)
canonical name. -/
theorem claim_C10 (s₁ s₂ : String)
    (h₁ : ∀ c ∈ s₁.data, isAlnumCh c = false)
    (h₂ : ∀ c ∈ s₂.data, isAlnumCh c = false) :
    to_snake_case s₁ = "" ∧ to_snake_case s₁ = to_snake_case s₂ := by
  have e₁ : to_snake_case s₁ = "" :=
    congrArg (fun l => (⟨l⟩ : String)) (snakeList_nil_of_no_alnum s₁.data h₁)
  have e₂ : to_snake_case s₂ = "" :=
    congrArg (fun l => (⟨l⟩ : String)) (snakeList_nil_of_no_alnum s₂.data h₂)
  exact ⟨e₁, e₁.trans e₂.symm⟩

/-- C10 witness: the all-symbol headers "###" and "---" both normalize to
the empty canonical name. -/
theorem claim_C10_witness :
    to_snake_case "###" = "" ∧ to_snake_case "###" = to_snake_case "---" :=
  claim_C10 "###" "---" (by decide) (by decide)

end BDT
